import Mathlib

/-!
Verification of the graph-traversal core of the Perseus dependency tracker.

The definitions below are shallow embeddings, translated function by function
from the Go sources:

* src/query.go — walkDependencies (the tree walker and its page-draining
  loop), flattenTree / processChildren (the tree flattener), dependencyItem;
* the pathFinder type and its methods findPathsBetween / xxx (the concurrent
  path search engine);
* src/findpath.go — the result-consumption loop of runFindPathsCommand;
* the retryOp transient-unavailability retry wrapper.

Machine integers are modelled as Nat (none of the embedded code overflows),
Go errors and panics as explicit sum types, and the gRPC client as a function
from request fields to a response.  Page loops that the Go code can iterate
without bound are given an explicit fuel parameter; running out of fuel is
reported as a distinguished error value, so divergence of the Go loop is
observable as the fuel-exhaustion result holding for every fuel.
-/

namespace Perseus

/-- ModVer mirrors module.Version from golang.org/x/mod/module: a module path
together with a semantic-version string (empty string meaning unspecified). -/
structure ModVer where
  path : String
  version : String
deriving DecidableEq, Repr

/-- ModVer.str mirrors module.Version.String: "path@version", or just the path
when the version is empty. -/
def ModVer.str (m : ModVer) : String :=
  if m.version = "" then m.path else m.path ++ "@" ++ m.version

/-- cmpChars is the three-way lexicographic comparison of character lists by
code point.  On UTF-8 encoded strings, byte-wise comparison (Go's
strings.Compare) and code-point-wise comparison agree, so this models
strings.Compare. -/
def cmpChars : List Char → List Char → Int
  | [], [] => 0
  | [], _ :: _ => -1
  | _ :: _, [] => 1
  | a :: as, b :: bs =>
    if a.toNat < b.toNat then -1
    else if b.toNat < a.toNat then 1
    else cmpChars as bs

/-- strCmp models Go's strings.Compare on the underlying character data. -/
def strCmp (a b : String) : Int := cmpChars a.data b.data

/-! ### The retryOp transient-unavailability wrapper -/

/-- RpcErr models a Go error as observed by connect.CodeOf: only its connect
status code matters to retryOp.  CodeUnavailable is 14. -/
structure RpcErr where
  code : Nat
deriving DecidableEq, Repr

/-- codeUnavailable is connect.CodeUnavailable. -/
def codeUnavailable : Nat := 14

/-- backoffDelays is the package-level delay table used by retryOp: the first
five Fibonacci-style delays in milliseconds plus a 0 sentinel so that no wait
happens after the final attempt. -/
def backoffDelays : List Nat := [100, 200, 300, 500, 800, 0]

/-- RetryTrace records the outcome of retryOp together with the number of
op() invocations made and the list of base backoff delays that were slept.
The Go code additionally adds up to 20 percent random jitter on top of each
base delay before sleeping; the jitter never affects control flow, so only the
base delays are tracked.  nilError is the (unreachable for the real
backoffDelays table) case of running off an empty delay list with no error. -/
inductive RetryTrace (α : Type) where
  | ok (v : α) (calls : Nat) (sleeps : List Nat)
  | fail (e : RpcErr) (calls : Nat) (sleeps : List Nat)
  | nilError (calls : Nat) (sleeps : List Nat)
deriving DecidableEq, Repr

/-- retryLoop embeds the body of retryOp's for-loop over the remaining backoff
delays.  op is modelled as a function from the zero-based call index to that
call's outcome; lastErr carries the err variable left by the previous
iteration, which the Go code returns when the delay list is exhausted. -/
def retryLoop {α : Type} (op : Nat → Except RpcErr α) :
    List Nat → Nat → List Nat → Option RpcErr → RetryTrace α
  | [], calls, sleeps, lastErr =>
    match lastErr with
    | some e => .fail e calls sleeps
    | none => .nilError calls sleeps
  | w :: rest, calls, sleeps, _ =>
    match op calls with
    | .ok v => .ok v (calls + 1) sleeps
    | .error e =>
      if e.code = codeUnavailable then
        retryLoop op rest (calls + 1) (sleeps ++ if 0 < w then [w] else []) (some e)
      else
        .fail e (calls + 1) sleeps

/-- retryOp embeds the retryOp generic from the repository: run op, retrying
on connect.CodeUnavailable errors with the backoffDelays table, returning any
other error immediately. -/
def retryOp {α : Type} (op : Nat → Except RpcErr α) : RetryTrace α :=
  retryLoop op backoffDelays 0 [] none

/-! ### The runFindPathsCommand result-consumption loop -/

/-- GoError models a Go error value as observed by the two checks in
runFindPathsCommand: whether errors.Is(err, context.Canceled) holds for it,
and which connect status code connect.CodeOf reports for it. -/
structure GoError where
  wrapsContextCanceled : Bool
  connectCode : Nat
deriving DecidableEq, Repr

/-- codeCanceled is connect.CodeCanceled. -/
def codeCanceled : Nat := 1

/-- codeUnknown is connect.CodeUnknown, which connect.CodeOf reports for any
error that is not a connect error — in particular for a nil error. -/
def codeUnknown : Nat := 2

/-- connectCodeOf models connect.CodeOf applied to a possibly-nil error. -/
def connectCodeOf : Option GoError → Nat
  | none => codeUnknown
  | some e => e.connectCode

/-- pathFinderResult mirrors the pathFinderResult struct: each result carries
either a dependency path or an error. -/
structure pathFinderResult where
  path : List ModVer
  err : Option GoError
deriving DecidableEq, Repr

/-- runFindPathsLoop embeds the for-range loop of runFindPathsCommand
(src/findpath.go) that drains the pathFinder result channel, given the
sequence of results the channel delivers.  It returns the accumulated paths
and the error runFindPathsCommand returns.  Note: the Go code tests
connect.CodeOf(err) on the enclosing function's named return value err —
which is still nil at that point — rather than on p.err, so that disjunct
compares connectCodeOf none with codeCanceled. -/
def runFindPathsLoop : List pathFinderResult → List (List ModVer) →
    List (List ModVer) × Option GoError
  | [], paths => (paths, none)
  | p :: rest, paths =>
    match p.err with
    | some e =>
      if e.wrapsContextCanceled || connectCodeOf none == codeCanceled then
        (paths, none)
      else
        (paths, some e)
    | none => runFindPathsLoop rest (paths ++ [p.path])

/-! ### The walkDependencies tree walker (src/query.go) -/

/-- PBModule mirrors the fields of the perseusapi.Module protobuf message
used by walkDependencies: a module name plus its version list. -/
structure PBModule where
  name : String
  versions : List String
deriving DecidableEq, Repr

/-- QueryDependenciesResponse mirrors the fields of the protobuf response
used by walkDependencies: a page of modules and the next-page token (empty
when no further pages remain). -/
structure QueryDependenciesResponse where
  modules : List PBModule
  nextPageToken : String
deriving DecidableEq, Repr

/-- DependencyDirection mirrors perseusapi.DependencyDirection. -/
inductive DependencyDirection where
  | dependencies
  | dependents
deriving DecidableEq, Repr

/-- GraphClient models PerseusServiceClient.QueryDependencies as a pure
function of the request fields (ModuleName, Version, Direction, PageToken). -/
def GraphClient : Type :=
  String → String → DependencyDirection → String →
    Except String QueryDependenciesResponse

/-- dependencyTreeNode mirrors the struct of the same name in src/query.go. -/
inductive dependencyTreeNode where
  | node (module : ModVer) (direct : Bool) (deps : List dependencyTreeNode)

/-- Accessor for the Module field. -/
def dependencyTreeNode.module : dependencyTreeNode → ModVer
  | .node m _ _ => m

/-- Accessor for the Direct field. -/
def dependencyTreeNode.direct : dependencyTreeNode → Bool
  | .node _ d _ => d

/-- Accessor for the Deps field. -/
def dependencyTreeNode.deps : dependencyTreeNode → List dependencyTreeNode
  | .node _ _ deps => deps

/-- addDep models node.Deps = append(node.Deps, dn). -/
def dependencyTreeNode.addDep : dependencyTreeNode → dependencyTreeNode →
    dependencyTreeNode
  | .node m d deps, dn => .node m d (deps ++ [dn])

/-- WalkErr is the error outcome of the embedded walkDependencies:
queryFailure propagates a client error verbatim, panicIndexOutOfRange models
the Go panic raised by dep.Versions[0] on an empty slice, and outOfFuel
signals that the modelled execution exceeded its fuel (the page loop of the
Go code can iterate without bound, so divergence shows up as outOfFuel for
every fuel value). -/
inductive WalkErr where
  | queryFailure (msg : String)
  | panicIndexOutOfRange
  | outOfFuel
deriving DecidableEq, Repr

mutual

/-- walkDependencies embeds walkDependencies from src/query.go (the context
cancellation check and the advisory status callback are omitted: the context
is never cancelled in this model and the callback cannot affect control
flow).  If depth exceeds maxDepth the zero-valued node is returned, otherwise
the page loop runs starting from an empty page token. -/
def walkDependencies (client : GraphClient) (mod : ModVer)
    (direction : DependencyDirection) (depth maxDepth : Nat) :
    Nat → Except WalkErr dependencyTreeNode
  | 0 => .error .outOfFuel
  | fuel + 1 =>
    if depth > maxDepth then .ok (.node ⟨"", ""⟩ false [])
    else
      walkPages client mod direction depth maxDepth
        (.node mod (depth == 1) []) "" fuel
termination_by structural fuel => fuel

/-- walkPages embeds the page loop
for done := false; !done; done = (req.PageToken != "") of walkDependencies:
fetch a page, process its modules, then — following the Go post-statement
literally — stop when the token just stored into req.PageToken is non-empty
and iterate again when it is empty. -/
def walkPages (client : GraphClient) (mod : ModVer)
    (direction : DependencyDirection) (depth maxDepth : Nat)
    (node : dependencyTreeNode) (pageToken : String) :
    Nat → Except WalkErr dependencyTreeNode
  | 0 => .error .outOfFuel
  | fuel + 1 =>
    match client mod.path mod.version direction pageToken with
    | .error e => .error (.queryFailure e)
    | .ok resp =>
      match walkModules client direction depth maxDepth resp.modules node fuel with
      | .error e => .error e
      | .ok node1 =>
        if resp.nextPageToken ≠ "" then .ok node1
        else
          walkPages client mod direction depth maxDepth node1
            resp.nextPageToken fuel
termination_by structural fuel => fuel

/-- walkModules embeds the for-range over resp.Modules inside the page loop:
read dep.Versions[0] (a panic when the version list is empty), recursively
walk the child at depth+1, attach the child subtree when non-empty, and
append the child to node.Deps. -/
def walkModules (client : GraphClient) (direction : DependencyDirection)
    (depth maxDepth : Nat) :
    List PBModule → dependencyTreeNode → Nat → Except WalkErr dependencyTreeNode
  | _, _, 0 => .error .outOfFuel
  | [], node, _ + 1 => .ok node
  | dep :: rest, node, fuel + 1 =>
    match dep.versions with
    | [] => .error .panicIndexOutOfRange
    | v0 :: _ =>
      match walkDependencies client ⟨dep.name, v0⟩ direction (depth + 1)
          maxDepth fuel with
      | .error e => .error e
      | .ok ndeps =>
        let dn : dependencyTreeNode :=
          if ndeps.deps.length > 0 then .node ⟨dep.name, v0⟩ false ndeps.deps
          else .node ⟨dep.name, v0⟩ false []
        walkModules client direction depth maxDepth rest (node.addDep dn) fuel
termination_by structural _ _ fuel => fuel

end

mutual

/-- treeHeight is the depth of the deepest node of the tree measured in hops
from its root (a leaf has height 0).  A node of the Go tree "at depth d" in
the spec's sense is a node d hops below the root, so the root's tree contains
a node at depth greater than maxDepth exactly when its height exceeds
maxDepth. -/
def treeHeight : dependencyTreeNode → Nat
  | .node _ _ deps => treeHeightList deps

/-- treeHeightList is the height of a forest: one more than the largest child
height, and 0 for an empty forest. -/
def treeHeightList : List dependencyTreeNode → Nat
  | [] => 0
  | d :: rest => max (treeHeight d + 1) (treeHeightList rest)

end

/-- A client whose every page is empty with an empty continuation token: the
common case of a module with no dependencies, answered in a single page. -/
def singlePageClient : GraphClient := fun _ _ _ _ => .ok ⟨[], ""⟩

/-- A client that serves the two-page scenario of the spec: the first page
holds modules x and y with a non-empty continuation token, the second page
holds module z with an empty token. -/
def twoPageClient : GraphClient := fun _ _ _ tok =>
  if tok = "" then .ok ⟨[⟨"x", ["v1"]⟩, ⟨"y", ["v1"]⟩], "t"⟩
  else if tok = "t" then .ok ⟨[⟨"z", ["v1"]⟩], ""⟩
  else .error "bad token"

/-- A client that returns a module whose Versions list is empty. -/
def emptyVersionsClient : GraphClient := fun _ _ _ _ => .ok ⟨[⟨"dep", []⟩], "x"⟩

/-- A client used to exercise the depth bound: the root has one dependency
and every page carries a non-empty continuation token. -/
def heightClient : GraphClient := fun p _ _ _ =>
  if p = "root" then .ok ⟨[⟨"a", ["v1"]⟩], "x"⟩ else .ok ⟨[], "x"⟩

/-! ### The flattenTree / processChildren flattener (src/query.go) -/

/-- dependencyItem mirrors the struct of the same name in src/query.go. -/
structure dependencyItem where
  Path : String
  Version : String
  IsDirect : Bool
  Degree : Nat
deriving DecidableEq, Repr

/-- flattenLess embeds the comparison closure passed to sort.Slice inside
flattenTree: compare paths with strings.Compare, and on equal paths order by
semver.Compare descending.  semver.Compare lives in golang.org/x/mod, outside
this repository, so it is the parameter cmp. -/
def flattenLess (cmp : String → String → Int) (lhs rhs : dependencyItem) :
    Bool :=
  let c := strCmp lhs.Path rhs.Path
  if c ≠ 0 then decide (c < 0) else decide (0 < cmp lhs.Version rhs.Version)

/-- flattenLe is the non-strict order induced by flattenLess: a precedes or
ties b when b is not strictly less than a.  A list sorted by sort.Slice with
flattenLess is exactly a list pairwise ordered by flattenLe. -/
def flattenLe (cmp : String → String → Int) (a b : dependencyItem) : Prop :=
  flattenLess cmp b a = false

instance (cmp : String → String → Int) : DecidableRel (flattenLe cmp) :=
  fun a b => by unfold flattenLe; infer_instance

/-- processChildren embeds processChildren from src/query.go.  The uniqueMods
map that the Go code mutates in place becomes explicit state, threaded
through the recursion and returned alongside the items. -/
def processChildren :
    List dependencyTreeNode → List String → Nat →
    List dependencyItem × List String
  | [], uniqueMods, _ => ([], uniqueMods)
  | .node m _ ds :: rest, uniqueMods, depth =>
    let modName := ModVer.str m
    if modName ∈ uniqueMods then
      processChildren rest uniqueMods depth
    else
      let di : dependencyItem :=
        { Path := m.path, Version := m.version,
          IsDirect := depth == 1, Degree := depth }
      let uniqueMods1 := modName :: uniqueMods
      let (sub, uniqueMods2) :=
        if ds.length > 0 then processChildren ds uniqueMods1 (depth + 1)
        else ([], uniqueMods1)
      let (tail, uniqueMods3) := processChildren rest uniqueMods2 depth
      (di :: (sub ++ tail), uniqueMods3)

/-- flattenDirect embeds the loop of flattenTree over tree.Deps: each direct
child is emitted unconditionally with IsDirect true and Degree 1, recorded in
uniqueMods, and its subtree is flattened through processChildren at depth
2. -/
def flattenDirect :
    List dependencyTreeNode → List String → List dependencyItem × List String
  | [], uniqueMods => ([], uniqueMods)
  | dep :: rest, uniqueMods =>
    let di : dependencyItem :=
      { Path := dep.module.path, Version := dep.module.version,
        IsDirect := true, Degree := 1 }
    let uniqueMods1 := dep.module.str :: uniqueMods
    let (sub, uniqueMods2) :=
      if dep.deps.length > 0 then processChildren dep.deps uniqueMods1 2
      else ([], uniqueMods1)
    let (tail, uniqueMods3) := flattenDirect rest uniqueMods2
    (di :: (sub ++ tail), uniqueMods3)

/-- flattenTree embeds flattenTree from src/query.go: flatten the tree, then
sort.  sort.Slice is modelled by an insertion sort over the same comparison
closure, which realises sort.Slice's postcondition (a permutation of the
items, pairwise ordered by the closure). -/
def flattenTree (cmp : String → String → Int) (tree : dependencyTreeNode) :
    List dependencyItem :=
  List.insertionSort (flattenLe cmp) (flattenDirect tree.deps []).1

/-- The dependency tree of the graph root → b, root → c, b → c, as the tree
walker lays it out when b is listed before c among root's dependencies. -/
def exTree : dependencyTreeNode :=
  .node ⟨"root", "v1"⟩ true
    [.node ⟨"b", "v1"⟩ false [.node ⟨"c", "v1"⟩ false []],
     .node ⟨"c", "v1"⟩ false []]

/-! ### The pathFinder search engine (findPathsBetween / xxx) -/

/-- matchesTarget embeds the match test of pathFinder.xxx: a child d matches
the target when the paths agree and either no target version was specified
(empty string) or the versions agree. -/
def matchesTarget (tgt d : ModVer) : Bool :=
  d.path == tgt.path && (tgt.version == "" || d.version == tgt.version)

/-- DepGraph abstracts the one-level expansion pathFinder.xxx performs via
walkDependencies(ctx, pf.c, from, dependencies, 1, 1, status): the list of
direct dependencies served for each module version.  The abstraction is
error-free because the path-search claims quantify over graph shape rather
than transport failures. -/
def DepGraph : Type := ModVer → List ModVer

/-- lastMod is the last element of a chain, mirroring the Go expression
chain[len(chain)-1] (the default is never used: every chain is non-empty by
construction). -/
def lastMod (chain : List ModVer) : ModVer := chain.getLastD ⟨"", ""⟩

/-- xxx embeds the recursive search method pathFinder.xxx.  The Go method
runs the recursive expansions as concurrently scheduled goroutines whose
results interleave arbitrarily on the channel; this embedding serialises them
depth-first, so the returned list enumerates, in one fixed order, exactly the
multiset of paths the concurrent run delivers.  The semaphore and the wait
group only gate scheduling and stream closure, so they are not modelled, and
the context is never cancelled.  chain is non-empty at every call (the root
receives [from] and each spawn appends one module); chain.getLastD mirrors
chain[len(chain)-1].  Termination is by the measure maxDepth + 1 - depth:
spawning stops once depth exceeds maxDepth. -/
def xxx (g : DepGraph) (tgt : ModVer) (maxDepth : Nat) (chain : List ModVer)
    (depth : Nat) : List (List ModVer) :=
  let frm := lastMod chain
  let deps := g frm
  let found := (deps.filter (matchesTarget tgt)).map (fun d => chain ++ [d])
  let spawned :=
    if _h : depth ≤ maxDepth then
      (deps.map (fun c => xxx g tgt maxDepth (chain ++ [c]) (depth + 1))).flatten
    else []
  found ++ spawned
termination_by maxDepth + 1 - depth
decreasing_by omega

/-- findPathsBetween embeds pathFinder.findPathsBetween: the root task
explores the chain [from] at depth 1, and the multiset of results delivered
on the channel before it closes is the returned list. -/
def findPathsBetween (g : DepGraph) (frm tgt : ModVer) (maxDepth : Nat) :
    List (List ModVer) :=
  xxx g tgt maxDepth [frm] 1

/-- exploredChains collects the chain argument of every invocation of xxx
reached from a root call: the chain itself, plus, when depth ≤ maxDepth, the
chains of all spawned child tasks (one per direct dependency of the chain's
last module, the match included). -/
def exploredChains (g : DepGraph) (maxDepth : Nat) (chain : List ModVer)
    (depth : Nat) : List (List ModVer) :=
  chain ::
    (if _h : depth ≤ maxDepth then
      ((g (lastMod chain)).map
        (fun c => exploredChains g maxDepth (chain ++ [c]) (depth + 1))).flatten
    else [])
termination_by maxDepth + 1 - depth
decreasing_by omega

/-- targetExts g tgt src b enumerates, in the traversal order of xxx, the
non-empty chains of graph edges that start below src, end at a module
matching the target, and consist of at most b edges. -/
def targetExts (g : DepGraph) (tgt : ModVer) (src : ModVer) :
    Nat → List (List ModVer)
  | 0 => []
  | b + 1 =>
    ((g src).filter (matchesTarget tgt)).map (fun d => [d]) ++
    (if 1 ≤ b then
      ((g src).map (fun c => (targetExts g tgt c b).map (fun e => c :: e))).flatten
    else [])

/-- isWalkFrom g src p holds when p is a chain of graph edges starting at
src: each element is a direct dependency of its predecessor. -/
def isWalkFrom (g : DepGraph) : ModVer → List ModVer → Bool
  | _, [] => true
  | src, c :: rest => decide (c ∈ g src) && isWalkFrom g c rest

/-- The line graph a → b → c. -/
def lineGraph : DepGraph := fun m =>
  if m.path = "a" then [⟨"b", "v1"⟩]
  else if m.path = "b" then [⟨"c", "v1"⟩]
  else []

/-- The two-cycle graph a → b → a. -/
def cycleGraph : DepGraph := fun m =>
  if m.path = "a" then [⟨"b", "v1"⟩]
  else if m.path = "b" then [⟨"a", "v1"⟩]
  else []

/-- The acyclic demo graph of the spec scenario: a → b, a → c, b → d. -/
def demoGraph : DepGraph := fun m =>
  if m.path = "a" then [⟨"b", "v1"⟩, ⟨"c", "v1"⟩]
  else if m.path = "b" then [⟨"d", "v1"⟩]
  else []

/-- A topological rank witnessing that demoGraph is acyclic. -/
def demoRank (m : ModVer) : Nat :=
  if m.path = "a" then 3 else if m.path = "b" then 2 else 1

theorem cmpChars_neg (as bs : List Char) : cmpChars as bs = -cmpChars bs as := by
  induction as generalizing bs with
  | nil => cases bs <;> simp [cmpChars]
  | cons a as ih =>
    cases bs with
    | nil => simp [cmpChars]
    | cons b bs =>
      simp only [cmpChars]
      rcases Nat.lt_trichotomy a.toNat b.toNat with h | h | h
      · rw [if_pos h, if_pos h, if_neg (Nat.lt_asymm h)]
      · rw [if_neg (by omega), if_neg (by omega), if_neg (by omega),
          if_neg (by omega)]
        exact ih bs
      · rw [if_neg (Nat.lt_asymm h), if_pos h, if_pos h]; decide

theorem cmpChars_eq_zero {as bs : List Char} (h : cmpChars as bs = 0) :
    as = bs := by
  induction as generalizing bs with
  | nil => cases bs with
    | nil => rfl
    | cons b bs => simp [cmpChars] at h
  | cons a as ih =>
    cases bs with
    | nil => simp [cmpChars] at h
    | cons b bs =>
      simp only [cmpChars] at h
      by_cases h1 : a.toNat < b.toNat
      · rw [if_pos h1] at h; exact absurd h (by decide)
      · rw [if_neg h1] at h
        by_cases h2 : b.toNat < a.toNat
        · rw [if_pos h2] at h; exact absurd h (by decide)
        · rw [if_neg h2] at h
          have hn : a.toNat = b.toNat := by omega
          have hab : a = b := Char.ext (UInt32.ext hn)
          rw [hab, ih h]

theorem cmpChars_lt_trans {as bs cs : List Char} (h1 : cmpChars as bs < 0)
    (h2 : cmpChars bs cs < 0) : cmpChars as cs < 0 := by
  induction as generalizing bs cs with
  | nil =>
    cases cs with
    | nil =>
      cases bs with
      | nil => simp [cmpChars] at h1
      | cons b bs => simp [cmpChars] at h2
    | cons c cs => simp [cmpChars]
  | cons a as ih =>
    cases bs with
    | nil => simp [cmpChars] at h1
    | cons b bs =>
      cases cs with
      | nil => simp [cmpChars] at h2
      | cons c cs =>
        simp only [cmpChars] at h1 h2 ⊢
        split_ifs at h1 with hab hba
        · split_ifs at h2 with hbc hcb
          · rw [if_pos (Nat.lt_trans hab hbc)]; decide
          · exact absurd h2 (by decide)
          · have hbc' : b.toNat = c.toNat := by omega
            rw [if_pos (hbc' ▸ hab)]; decide
        · exact absurd h1 (by decide)
        · have hab' : a.toNat = b.toNat := by omega
          split_ifs at h2 with hbc hcb
          · rw [if_pos (by omega : a.toNat < c.toNat)]; decide
          · exact absurd h2 (by decide)
          · rw [if_neg (by omega), if_neg (by omega)]
            exact ih h1 h2

theorem strCmp_neg (a b : String) : strCmp a b = -strCmp b a :=
  cmpChars_neg a.data b.data

theorem strCmp_eq_zero {a b : String} (h : strCmp a b = 0) : a = b := by
  cases a with
  | mk as =>
    cases b with
    | mk bs => exact congrArg String.mk (cmpChars_eq_zero h)

theorem strCmp_lt_trans {a b c : String} (h1 : strCmp a b < 0)
    (h2 : strCmp b c < 0) : strCmp a c < 0 :=
  cmpChars_lt_trans h1 h2

theorem runFindPathsLoop_acc (oks : List (List ModVer)) (e : GoError)
    (rest : List pathFinderResult) (acc : List (List ModVer)) :
    runFindPathsLoop
        (oks.map (fun q => ⟨q, none⟩) ++ { path := [], err := some e } :: rest)
        acc
      = (acc ++ oks, if e.wrapsContextCanceled then none else some e) := by
  induction oks generalizing acc with
  | nil =>
    simp only [List.map_nil, List.nil_append, runFindPathsLoop]
    have hcode : (connectCodeOf none == codeCanceled) = false := by decide
    rw [hcode]
    cases h : e.wrapsContextCanceled <;> simp
  | cons q qs ih =>
    simp only [List.map_cons, List.cons_append, runFindPathsLoop,
      List.append_eq]
    rw [ih (acc ++ [q])]
    simp

theorem treeHeight_node (m : ModVer) (d : Bool)
    (deps : List dependencyTreeNode) :
    treeHeight (.node m d deps) = treeHeightList deps := rfl

theorem treeHeightList_append_one (l : List dependencyTreeNode)
    (d : dependencyTreeNode) :
    treeHeightList (l ++ [d]) = max (treeHeightList l) (treeHeight d + 1) := by
  induction l with
  | nil => simp [treeHeightList]
  | cons x xs ih =>
    show max (treeHeight x + 1) (treeHeightList (xs ++ [d]))
      = max (max (treeHeight x + 1) (treeHeightList xs)) (treeHeight d + 1)
    rw [ih]
    omega

theorem treeHeight_addDep (n d : dependencyTreeNode) :
    treeHeight (n.addDep d) = max (treeHeight n) (treeHeight d + 1) := by
  cases n with
  | node m dr deps =>
    simp [dependencyTreeNode.addDep, treeHeight_node, treeHeightList_append_one]

theorem treeHeight_of_deps (m : ModVer) (d : Bool) (n : dependencyTreeNode) :
    treeHeight (.node m d n.deps) = treeHeight n := by
  cases n with
  | node m2 d2 deps => rfl

/-- Height invariant of the tree walker, proved for the three mutually
recursive functions at once by induction on the fuel: an ok result of
walkDependencies at call depth d is a tree of height at most maxDepth+1-d,
and walkPages / walkModules preserve that bound for the node they extend. -/
theorem walk_height (client : GraphClient) (dir : DependencyDirection) :
    ∀ fuel : Nat,
      (∀ mod depth maxD node,
        walkDependencies client mod dir depth maxD fuel = .ok node →
        treeHeight node ≤ maxD + 1 - depth) ∧
      (∀ mod depth maxD node tok node1, depth ≤ maxD →
        treeHeight node ≤ maxD + 1 - depth →
        walkPages client mod dir depth maxD node tok fuel = .ok node1 →
        treeHeight node1 ≤ maxD + 1 - depth) ∧
      (∀ depth maxD mods node node1, depth ≤ maxD →
        treeHeight node ≤ maxD + 1 - depth →
        walkModules client dir depth maxD mods node fuel = .ok node1 →
        treeHeight node1 ≤ maxD + 1 - depth) := by
  intro fuel
  induction fuel with
  | zero =>
    refine ⟨?_, ?_, ?_⟩
    · intro mod depth maxD node h; exact absurd h (by simp [walkDependencies])
    · intro mod depth maxD node tok node1 _ _ h
      exact absurd h (by simp [walkPages])
    · intro depth maxD mods node node1 _ _ h
      exact absurd h (by simp [walkModules])
  | succ f ih =>
    obtain ⟨ihW, ihP, ihM⟩ := ih
    refine ⟨?_, ?_, ?_⟩
    · intro mod depth maxD node h
      simp only [walkDependencies] at h
      by_cases hd : depth > maxD
      · rw [if_pos hd] at h
        injection h with h
        subst h
        simp [treeHeight_node, treeHeightList]
      · rw [if_neg hd] at h
        exact ihP mod depth maxD _ "" node (by omega)
          (by simp [treeHeight_node, treeHeightList]) h
    · intro mod depth maxD node tok node1 hdep hnode h
      simp only [walkPages] at h
      split at h
      · simp at h
      · rename_i resp hc
        split at h
        · simp at h
        · rename_i node2 hm
          have hn2 : treeHeight node2 ≤ maxD + 1 - depth :=
            ihM depth maxD resp.modules node node2 hdep hnode hm
          split at h
          · injection h with h
            subst h
            exact hn2
          · exact ihP mod depth maxD node2 resp.nextPageToken node1 hdep hn2 h
    · intro depth maxD mods node node1 hdep hnode h
      cases mods with
      | nil =>
        simp only [walkModules] at h
        injection h with h
        subst h
        exact hnode
      | cons dep rest =>
        simp only [walkModules] at h
        split at h
        · simp at h
        · rename_i v0 vs hv
          split at h
          · simp at h
          · rename_i ndeps hw
            have hnd : treeHeight ndeps ≤ maxD + 1 - (depth + 1) :=
              ihW ⟨dep.name, v0⟩ (depth + 1) maxD ndeps hw
            refine ihM depth maxD rest _ node1 hdep ?_ h
            rw [treeHeight_addDep]
            have hdn : treeHeight (if ndeps.deps.length > 0
                then dependencyTreeNode.node ⟨dep.name, v0⟩ false ndeps.deps
                else dependencyTreeNode.node ⟨dep.name, v0⟩ false [])
                ≤ maxD - depth := by
              by_cases hl : ndeps.deps.length > 0
              · rw [if_pos hl, treeHeight_of_deps]
                omega
              · rw [if_neg hl]
                simp [treeHeight_node, treeHeightList]
            omega

theorem walkPages_singlePage (mod : ModVer) (dir : DependencyDirection)
    (depth maxD : Nat) :
    ∀ fuel node,
      walkPages singlePageClient mod dir depth maxD node "" fuel
        = .error .outOfFuel := by
  intro fuel
  induction fuel with
  | zero => intro node; rfl
  | succ f ih =>
    intro node
    cases f with
    | zero => rfl
    | succ g =>
      simp only [walkPages, singlePageClient, walkModules]
      exact ih node

/-- C2: evaluation of the page-draining loop of walkDependencies.  The spec
says the loop stops exactly when the returned continuation token is empty, so
the two-page client (pages x,y with token "t", then z with token "") should
yield the children x, y, z; the code instead stops after the first page
because the loop condition done = (req.PageToken != "") is inverted, and on
the everyday single-page response (empty token) it refetches the same page
forever, which the model reports as running out of every amount of fuel. -/
theorem walkDependencies_page_loop_inverted :
    (walkDependencies twoPageClient ⟨"root", "v1"⟩ .dependencies 1 1 9).map
        (fun n => n.deps.map (fun d => d.module.path)) = .ok ["x", "y"] ∧
    ∀ fuel,
      walkDependencies singlePageClient ⟨"root", "v1"⟩ .dependencies 1 1 fuel
        = .error .outOfFuel := by
  refine ⟨rfl, ?_⟩
  intro fuel
  cases fuel with
  | zero => rfl
  | succ f =>
    simp only [walkDependencies]
    rw [if_neg (by omega)]
    exact walkPages_singlePage ⟨"root", "v1"⟩ .dependencies 1 1 f _

/-- C6: for every client response behaviour and every maxDepth of at least 1,
a tree successfully returned by walkDependencies invoked at depth 1 (as the
query command does) contains no node more than maxDepth hops below the root:
its height is at most maxDepth. -/
theorem treeWalker_depth_bounded (client : GraphClient) (mod : ModVer)
    (dir : DependencyDirection) (maxDepth fuel : Nat)
    (node : dependencyTreeNode) (hmax : 1 ≤ maxDepth)
    (hwalk : walkDependencies client mod dir 1 maxDepth fuel = .ok node) :
    treeHeight node ≤ maxDepth := by
  have h := (walk_height client dir fuel).1 mod 1 maxDepth node hwalk
  omega

/-- Witness for C6: the depth-bound theorem applied to a concrete client
whose walk returns a one-child tree under maxDepth 2. -/
theorem treeWalker_depth_bounded_witness :
    1 ≤ 2 ∧
    treeHeight (.node ⟨"root", "v1"⟩ true [.node ⟨"a", "v1"⟩ false []]) ≤ 2 :=
  ⟨by decide,
   treeWalker_depth_bounded heightClient ⟨"root", "v1"⟩ .dependencies 2 9
     (.node ⟨"root", "v1"⟩ true [.node ⟨"a", "v1"⟩ false []]) (by decide) rfl⟩

/-- No-panic invariant for the three walker functions, by induction on fuel:
when every ok response of the client carries only modules with a non-empty
Versions list, the Versions[0] access never goes out of bounds. -/
theorem walk_no_panic (client : GraphClient)
    (hgood : ∀ p v dir tok resp, client p v dir tok = .ok resp →
      ∀ m ∈ resp.modules, m.versions ≠ []) :
    ∀ fuel : Nat,
      (∀ mod dir depth maxD,
        walkDependencies client mod dir depth maxD fuel
          ≠ .error .panicIndexOutOfRange) ∧
      (∀ mod dir depth maxD node tok,
        walkPages client mod dir depth maxD node tok fuel
          ≠ .error .panicIndexOutOfRange) ∧
      (∀ dir depth maxD mods node, (∀ m ∈ mods, m.versions ≠ []) →
        walkModules client dir depth maxD mods node fuel
          ≠ .error .panicIndexOutOfRange) := by
  intro fuel
  induction fuel with
  | zero =>
    refine ⟨?_, ?_, ?_⟩
    · intro mod dir depth maxD; simp [walkDependencies]
    · intro mod dir depth maxD node tok; simp [walkPages]
    · intro dir depth maxD mods node _; simp [walkModules]
  | succ f ih =>
    obtain ⟨ihW, ihP, ihM⟩ := ih
    refine ⟨?_, ?_, ?_⟩
    · intro mod dir depth maxD
      simp only [walkDependencies]
      by_cases hd : depth > maxD
      · rw [if_pos hd]; simp
      · rw [if_neg hd]; exact ihP mod dir depth maxD _ ""
    · intro mod dir depth maxD node tok
      simp only [walkPages]
      cases hc : client mod.path mod.version dir tok with
      | error e => simp [hc]
      | ok resp =>
        cases hm : walkModules client dir depth maxD resp.modules node f with
        | error e =>
          have hne : e ≠ .panicIndexOutOfRange := by
            intro he
            exact ihM dir depth maxD resp.modules node
              (fun m hm2 => hgood mod.path mod.version dir tok resp hc m hm2)
              (he ▸ hm)
          simp [hc, hm, hne]
        | ok node1 =>
          simp only [hc, hm]
          by_cases ht : resp.nextPageToken = ""
          · rw [if_neg (by simp [ht] : ¬resp.nextPageToken ≠ "")]
            exact ihP mod dir depth maxD node1 resp.nextPageToken
          · rw [if_pos ht]
            simp
    · intro dir depth maxD mods node hmods
      cases mods with
      | nil => simp [walkModules]
      | cons dep rest =>
        simp only [walkModules]
        cases hv : dep.versions with
        | nil =>
          exact absurd hv (hmods dep (List.mem_cons_self dep rest))
        | cons v0 vs =>
          simp only [hv]
          cases hw : walkDependencies client ⟨dep.name, v0⟩ dir (depth + 1)
              maxD f with
          | error e =>
            have hne : e ≠ .panicIndexOutOfRange := by
              intro he
              exact ihW ⟨dep.name, v0⟩ dir (depth + 1) maxD (he ▸ hw)
            simp [hw, hne]
          | ok ndeps =>
            simp only [hw]
            exact ihM dir depth maxD rest (node.addDep _)
              (fun m hm2 => hmods m (List.mem_cons_of_mem dep hm2))

/-- C10: walkDependencies reads dep.Versions[0] without a length check.  The
access never goes out of bounds provided every module of every ok response
carries at least one version; a client response containing a module with an
empty Versions list drives the walk into the out-of-bounds access (the Go
panic). -/
theorem walkDependencies_versions_head_unchecked :
    (∀ client : GraphClient,
      (∀ p v dir tok resp, client p v dir tok = .ok resp →
        ∀ m ∈ resp.modules, m.versions ≠ []) →
      ∀ mod dir depth maxD fuel,
        walkDependencies client mod dir depth maxD fuel
          ≠ .error .panicIndexOutOfRange) ∧
    walkDependencies emptyVersionsClient ⟨"root", "v1"⟩ .dependencies 1 1 9
      = .error .panicIndexOutOfRange := by
  refine ⟨?_, rfl⟩
  intro client hgood mod dir depth maxD fuel
  exact (walk_no_panic client hgood fuel).1 mod dir depth maxD

/-- Witness for C10: the no-panic half applied to the single-page client,
whose responses trivially satisfy the non-empty-versions precondition. -/
theorem walkDependencies_versions_head_unchecked_witness :
    walkDependencies singlePageClient ⟨"r", "v"⟩ .dependencies 1 1 3
      ≠ .error .panicIndexOutOfRange :=
  walkDependencies_versions_head_unchecked.1 singlePageClient
    (by
      intro p v dir tok resp h m hm
      injection h with h
      subst h
      simp at hm)
    ⟨"r", "v"⟩ .dependencies 1 1 3

theorem cmpChars_self (as : List Char) : cmpChars as as = 0 := by
  induction as with
  | nil => rfl
  | cons a as ih => simp [cmpChars, ih]

theorem strCmp_self (a : String) : strCmp a a = 0 := cmpChars_self a.data

theorem flattenLess_eq_true (cmp : String → String → Int)
    (x y : dependencyItem) :
    flattenLess cmp x y = true ↔
      strCmp x.Path y.Path < 0 ∨
      (strCmp x.Path y.Path = 0 ∧ 0 < cmp x.Version y.Version) := by
  simp only [flattenLess]
  by_cases h : strCmp x.Path y.Path = 0
  · rw [if_neg (by simp [h])]
    simp [h]
  · rw [if_pos h]
    simp [h]

theorem flattenLe_iff (cmp : String → String → Int) (x y : dependencyItem) :
    flattenLe cmp x y ↔
      ¬(strCmp y.Path x.Path < 0 ∨
        (strCmp y.Path x.Path = 0 ∧ 0 < cmp y.Version x.Version)) := by
  unfold flattenLe
  rw [Bool.eq_false_iff]
  exact not_congr (flattenLess_eq_true cmp y x)

theorem flattenLe_total (cmp : String → String → Int)
    (hflip : ∀ a b, cmp a b = -cmp b a) (a b : dependencyItem) :
    flattenLe cmp a b ∨ flattenLe cmp b a := by
  rw [flattenLe_iff, flattenLe_iff]
  by_contra hcon
  rcases not_or.mp hcon with ⟨h1, h2⟩
  rw [not_not] at h1 h2
  have hn := strCmp_neg a.Path b.Path
  have hv := hflip a.Version b.Version
  rcases h1 with h1 | ⟨h1z, h1v⟩ <;> rcases h2 with h2 | ⟨h2z, h2v⟩ <;> omega

theorem flattenLe_trans (cmp : String → String → Int)
    (htrans : ∀ a b c, cmp a b ≤ 0 → cmp b c ≤ 0 → cmp a c ≤ 0)
    (a b c : dependencyItem)
    (hab : flattenLe cmp a b) (hbc : flattenLe cmp b c) :
    flattenLe cmp a c := by
  rw [flattenLe_iff] at hab hbc ⊢
  push_neg at hab hbc
  obtain ⟨hab1, hab2⟩ := hab
  obtain ⟨hbc1, hbc2⟩ := hbc
  intro hca
  by_cases hz1 : strCmp b.Path a.Path = 0
  · have hpath1 : b.Path = a.Path := strCmp_eq_zero hz1
    by_cases hz2 : strCmp c.Path b.Path = 0
    · have hpath2 : c.Path = b.Path := strCmp_eq_zero hz2
      rw [hpath2, hpath1] at hca
      have hself := strCmp_self a.Path
      have hv1 : cmp b.Version a.Version ≤ 0 := hab2 hz1
      have hv2 : cmp c.Version b.Version ≤ 0 := hbc2 hz2
      have hv3 := htrans c.Version b.Version a.Version hv2 hv1
      rcases hca with hca | ⟨_, hca2⟩ <;> omega
    · rw [hpath1] at hbc1 hz2
      rcases hca with hca | ⟨hca2, _⟩ <;> omega
  · have hlt1 : strCmp a.Path b.Path < 0 := by
      have hn := strCmp_neg a.Path b.Path
      omega
    by_cases hz2 : strCmp c.Path b.Path = 0
    · have hpath2 : c.Path = b.Path := strCmp_eq_zero hz2
      rw [hpath2] at hca
      rcases hca with hca | ⟨hca2, _⟩ <;> omega
    · have hlt2 : strCmp b.Path c.Path < 0 := by
        have hn := strCmp_neg b.Path c.Path
        omega
      have hlt3 := strCmp_lt_trans hlt1 hlt2
      have hn := strCmp_neg a.Path c.Path
      rcases hca with hca | ⟨hca2, _⟩ <;> omega

/-- C4: evaluation of the flattener at exTree.  The spec (and flattenTree's
own doc comment, which promises a flat list of unique modules) says no
(path, version) identity is emitted twice, but the direct-child loop of
flattenTree inserts entries without consulting uniqueMods, so c@v1 appears
twice: once with degree 2 discovered through b's subtree and once as a
direct dependency with degree 1. -/
theorem flattenTree_duplicate_direct_entry :
    flattenTree (fun _ _ => 0) exTree =
      [⟨"b", "v1", true, 1⟩, ⟨"c", "v1", false, 2⟩, ⟨"c", "v1", true, 1⟩] ∧
    ¬ ((flattenTree (fun _ _ => 0) exTree).map
        (fun i => (i.Path, i.Version))).Nodup := by
  have h : flattenTree (fun _ _ => 0) exTree =
      [⟨"b", "v1", true, 1⟩, ⟨"c", "v1", false, 2⟩, ⟨"c", "v1", true, 1⟩] := by
    simp [flattenTree, flattenDirect, processChildren, exTree, ModVer.str,
      dependencyTreeNode.deps, dependencyTreeNode.module, List.insertionSort,
      List.orderedInsert, flattenLe, flattenLess, strCmp, cmpChars]
  refine ⟨h, ?_⟩
  rw [h]
  decide

/-- C9: for every comparator cmp with the sign-flip and transitivity
properties of a three-way semantic-version comparison, the flattened list is
sorted by path ascending under strings.Compare, and entries with equal paths
are ordered by version descending under cmp: every later entry has a
strictly greater path, or an equal path and a version that cmp places no
higher than the earlier entry's. -/
theorem flattenTree_sorted (cmp : String → String → Int)
    (hflip : ∀ a b, cmp a b = -cmp b a)
    (htrans : ∀ a b c, cmp a b ≤ 0 → cmp b c ≤ 0 → cmp a c ≤ 0)
    (tree : dependencyTreeNode) :
    (flattenTree cmp tree).Pairwise (fun x y =>
      strCmp x.Path y.Path < 0 ∨
      (strCmp x.Path y.Path = 0 ∧ cmp y.Version x.Version ≤ 0)) := by
  haveI htot : IsTotal dependencyItem (flattenLe cmp) :=
    ⟨flattenLe_total cmp hflip⟩
  haveI htr : IsTrans dependencyItem (flattenLe cmp) :=
    ⟨fun a b c => flattenLe_trans cmp htrans a b c⟩
  have hs := List.sorted_insertionSort (flattenLe cmp)
    (flattenDirect tree.deps []).1
  refine List.Pairwise.imp ?_ hs
  intro x y hxy
  rw [flattenLe_iff] at hxy
  push_neg at hxy
  obtain ⟨h1, h2⟩ := hxy
  have hn := strCmp_neg x.Path y.Path
  by_cases hz : strCmp y.Path x.Path = 0
  · exact Or.inr ⟨by omega, h2 hz⟩
  · exact Or.inl (by omega)

/-- Witness for C9: the sortedness theorem applied to the everywhere-equal
version comparator and a concrete two-child tree. -/
theorem flattenTree_sorted_witness :
    (flattenTree (fun _ _ => 0)
        (.node ⟨"r", "v"⟩ true
          [.node ⟨"m2", "v1"⟩ false [], .node ⟨"m1", "v1"⟩ false []])).Pairwise
      (fun x y =>
        strCmp x.Path y.Path < 0 ∨
        (strCmp x.Path y.Path = 0 ∧ (0 : Int) ≤ 0)) :=
  flattenTree_sorted (fun _ _ => 0) (fun _ _ => by norm_num)
    (fun _ _ _ _ h => h) _

theorem lastMod_concat (l : List ModVer) (c : ModVer) :
    lastMod (l ++ [c]) = c := List.getLastD_concat _ _ _

theorem xxx_eq_targetExts (g : DepGraph) (tgt : ModVer) (maxDepth : Nat) :
    ∀ b depth chain, depth ≤ maxDepth + 1 → maxDepth + 1 - depth = b →
      xxx g tgt maxDepth chain depth
        = (targetExts g tgt (lastMod chain)
            (maxDepth + 2 - depth)).map (fun e => chain ++ e) := by
  intro b
  induction b with
  | zero =>
    intro depth chain hdep hb
    have hd : depth = maxDepth + 1 := by omega
    subst hd
    rw [xxx]
    simp only [dif_neg (by omega : ¬ maxDepth + 1 ≤ maxDepth)]
    have hbud : maxDepth + 2 - (maxDepth + 1) = 1 := by omega
    rw [hbud]
    simp [targetExts, List.map_map]
  | succ b ih =>
    intro depth chain hdep hb
    have hdm : depth ≤ maxDepth := by omega
    have hbud : maxDepth + 2 - depth = (b + 1) + 1 := by omega
    rw [xxx]
    simp only [dif_pos hdm]
    rw [hbud]
    conv_rhs => rw [targetExts]
    rw [if_pos (by omega : 1 ≤ b + 1), List.map_append]
    congr 1
    · rw [List.map_map]
      rfl
    · rw [List.map_flatten, List.map_map]
      congr 1
      congr 1
      funext c
      have hih := ih (depth + 1) (chain ++ [c]) (by omega) (by omega)
      rw [lastMod_concat] at hih
      rw [show maxDepth + 2 - (depth + 1) = b + 1 from by omega] at hih
      rw [hih]
      simp only [Function.comp, List.map_map]
      congr 1
      funext e
      exact (List.append_cons chain c e).symm

/-- C8: the retry wrapper returns the eventual success (with no error) when
the operation fails with a transient-unavailable error twice and then
succeeds; it returns a non-transient error immediately after a single call;
and a persistently transient-unavailable operation is retried 5 times (6
calls in total), sleeping the base delays 100, 200, 300, 500 and 800
milliseconds — each between 100ms and 800ms — before the error surfaces. -/
theorem retryOp_retries_transient_unavailability {α : Type} :
    (∀ (op : Nat → Except RpcErr α) (e₀ e₁ : RpcErr) (v : α),
      e₀.code = codeUnavailable → e₁.code = codeUnavailable →
      op 0 = .error e₀ → op 1 = .error e₁ → op 2 = .ok v →
      retryOp op = .ok v 3 [100, 200]) ∧
    (∀ (op : Nat → Except RpcErr α) (e : RpcErr),
      e.code ≠ codeUnavailable → op 0 = .error e →
      retryOp op = .fail e 1 []) ∧
    (∀ (op : Nat → Except RpcErr α),
      (∀ i, ∃ e, op i = .error e ∧ e.code = codeUnavailable) →
      ∃ e, retryOp op = .fail e 6 [100, 200, 300, 500, 800] ∧
        ∀ s ∈ [100, 200, 300, 500, 800], 100 ≤ s ∧ s ≤ 800) := by
  refine ⟨?_, ?_, ?_⟩
  · intro op e₀ e₁ v hc₀ hc₁ h₀ h₁ h₂
    simp [retryOp, backoffDelays, retryLoop, h₀, h₁, h₂, hc₀, hc₁]
  · intro op e hc h₀
    simp [retryOp, backoffDelays, retryLoop, h₀, hc]
  · intro op h
    obtain ⟨e₀, h₀, hc₀⟩ := h 0
    obtain ⟨e₁, h₁, hc₁⟩ := h 1
    obtain ⟨e₂, h₂, hc₂⟩ := h 2
    obtain ⟨e₃, h₃, hc₃⟩ := h 3
    obtain ⟨e₄, h₄, hc₄⟩ := h 4
    obtain ⟨e₅, h₅, hc₅⟩ := h 5
    refine ⟨e₅, ?_, by decide⟩
    simp [retryOp, backoffDelays, retryLoop, h₀, h₁, h₂, h₃, h₄, h₅,
      hc₀, hc₁, hc₂, hc₃, hc₄, hc₅]

/-- Witness for C8: the three parts of the retry theorem applied at concrete
operations. -/
theorem retryOp_retries_transient_unavailability_witness :
    retryOp (fun i => if i < 2 then .error ⟨14⟩ else .ok (42 : Nat))
        = .ok 42 3 [100, 200] ∧
    retryOp (fun _ => (.error ⟨3⟩ : Except RpcErr Nat)) = .fail ⟨3⟩ 1 [] ∧
    ∃ e, retryOp (fun _ => (.error ⟨14⟩ : Except RpcErr Nat))
        = .fail e 6 [100, 200, 300, 500, 800] ∧
      ∀ s ∈ [100, 200, 300, 500, 800], 100 ≤ s ∧ s ≤ 800 :=
  ⟨retryOp_retries_transient_unavailability.1 _ ⟨14⟩ ⟨14⟩ 42 rfl rfl rfl rfl rfl,
   retryOp_retries_transient_unavailability.2.1 _ ⟨3⟩ (by decide) rfl,
   retryOp_retries_transient_unavailability.2.2 _
     (fun _ => ⟨⟨14⟩, rfl, rfl⟩)⟩

/-- C7: when the pathFinder result stream yields a result carrying a
cancellation error (one satisfying errors.Is(err, context.Canceled), which is
exactly what the pathFinder emits on cancellation), runFindPathsCommand's
consumption loop completes with no error, keeping the paths already received;
a result carrying any non-cancellation error makes the loop return that
error. -/
theorem runFindPathsCommand_swallows_cancellation
    (oks : List (List ModVer)) (e : GoError) (rest : List pathFinderResult) :
    runFindPathsLoop
        (oks.map (fun q => ⟨q, none⟩) ++ { path := [], err := some e } :: rest)
        []
      = (oks, if e.wrapsContextCanceled then none else some e) := by
  rw [runFindPathsLoop_acc]
  simp

theorem lastMod_single (x : ModVer) : lastMod [x] = x := rfl

theorem lastMod_cons_of_ne_nil (c : ModVer) (e : List ModVer) (he : e ≠ []) :
    lastMod (c :: e) = lastMod e := by
  unfold lastMod
  rw [List.getLastD_cons, List.getLastD_eq_getLast?, List.getLastD_eq_getLast?]
  obtain ⟨x, hx⟩ :=
    Option.isSome_iff_exists.mp (List.getLast?_isSome.mpr he)
  rw [hx]
  rfl

theorem targetExts_ne_nil (g : DepGraph) (tgt : ModVer) :
    ∀ b src p, p ∈ targetExts g tgt src b → p ≠ [] := by
  intro b
  induction b with
  | zero => intro src p hp; simp [targetExts] at hp
  | succ b ih =>
    intro src p hp
    simp only [targetExts] at hp
    rcases List.mem_append.mp hp with h | h
    · obtain ⟨d, _, rfl⟩ := List.mem_map.mp h
      simp
    · by_cases hb : 1 ≤ b
      · rw [if_pos hb] at h
        obtain ⟨l, hl, hpl⟩ := List.mem_flatten.mp h
        obtain ⟨c, hc, rfl⟩ := List.mem_map.mp hl
        obtain ⟨e, he, rfl⟩ := List.mem_map.mp hpl
        simp
      · rw [if_neg hb] at h
        simp at h

theorem count_cons_map (c : ModVer) (e : List ModVer)
    (l : List (List ModVer)) :
    (l.map (fun x => c :: x)).count (c :: e) = l.count e := by
  induction l with
  | nil => rfl
  | cons y ys ih =>
    simp only [List.map_cons, List.count_cons, ih, beq_iff_eq,
      List.cons.injEq, true_and]

theorem count_singleton_map (d : ModVer) (l : List ModVer) :
    (l.map (fun x => [x])).count [d] = l.count d := by
  induction l with
  | nil => rfl
  | cons y ys ih =>
    simp only [List.map_cons, List.count_cons, ih, beq_iff_eq,
      List.cons.injEq, and_true]

theorem count_flatten_cons_map (F : ModVer → List (List ModVer))
    (c' : ModVer) (e : List ModVer) :
    ∀ cs : List ModVer, cs.Nodup →
      ((cs.map (fun c => (F c).map (fun x => c :: x))).flatten).count (c' :: e)
        = if c' ∈ cs then (F c').count e else 0 := by
  intro cs
  induction cs with
  | nil => intro _; simp
  | cons c cs ih =>
    intro hnd
    obtain ⟨hnotin, hnd'⟩ := List.nodup_cons.mp hnd
    simp only [List.map_cons, List.flatten_cons, List.count_append]
    by_cases hc : c = c'
    · subst hc
      rw [count_cons_map, ih hnd']
      rw [if_neg hnotin, if_pos (List.mem_cons_self c cs)]
      omega
    · have h0 : ((F c).map (fun x => c :: x)).count (c' :: e) = 0 := by
        rw [List.count_eq_zero]
        intro hmem
        obtain ⟨x, _, hx⟩ := List.mem_map.mp hmem
        exact hc (List.cons.inj hx).1
      rw [h0, ih hnd']
      by_cases h : c' ∈ cs
      · rw [if_pos h, if_pos (List.mem_cons_of_mem c h)]
        omega
      · rw [if_neg h, if_neg]
        intro hx
        rcases List.mem_cons.mp hx with rfl | hx2
        · exact hc rfl
        · exact h hx2

theorem count_targetExts (g : DepGraph) (tgt : ModVer)
    (hnd : ∀ m, (g m).Nodup) :
    ∀ b src p,
      (targetExts g tgt src b).count p =
        if p ≠ [] ∧ isWalkFrom g src p = true ∧
            matchesTarget tgt (lastMod p) = true ∧ p.length ≤ b
        then 1 else 0 := by
  intro b
  induction b with
  | zero =>
    intro src p
    simp only [targetExts, List.count_nil]
    rw [if_neg]
    rintro ⟨hne, _, _, hlen⟩
    cases p with
    | nil => exact hne rfl
    | cons c e => simp at hlen
  | succ b ih =>
    intro src p
    simp only [targetExts, List.count_append]
    cases p with
    | nil =>
      have h1 : (((g src).filter (matchesTarget tgt)).map
          (fun d => [d])).count ([] : List ModVer) = 0 := by
        rw [List.count_eq_zero]
        intro h
        obtain ⟨d, _, hd⟩ := List.mem_map.mp h
        simp at hd
      have h2 : (if 1 ≤ b then
          ((g src).map (fun c =>
            (targetExts g tgt c b).map (fun e => c :: e))).flatten
          else []).count ([] : List ModVer) = 0 := by
        by_cases hb : 1 ≤ b
        · rw [if_pos hb, List.count_eq_zero]
          intro h
          obtain ⟨l, hl, hpl⟩ := List.mem_flatten.mp h
          obtain ⟨c, _, rfl⟩ := List.mem_map.mp hl
          obtain ⟨x, _, hx⟩ := List.mem_map.mp hpl
          simp at hx
        · rw [if_neg hb]; simp
      rw [h1, h2, if_neg (by rintro ⟨hne, _⟩; exact hne rfl)]
    | cons c' e =>
      cases e with
      | nil =>
        rw [show (c' :: ([] : List ModVer)) = [c'] from rfl]
        rw [count_singleton_map c']
        have hsp : (if 1 ≤ b then
            ((g src).map (fun c =>
              (targetExts g tgt c b).map (fun e => c :: e))).flatten
            else []).count [c'] = 0 := by
          by_cases hb : 1 ≤ b
          · rw [if_pos hb, List.count_eq_zero]
            intro h
            obtain ⟨l, hl, hpl⟩ := List.mem_flatten.mp h
            obtain ⟨c, _, rfl⟩ := List.mem_map.mp hl
            obtain ⟨x, hx, hcx⟩ := List.mem_map.mp hpl
            have hne := targetExts_ne_nil g tgt b c x hx
            injection hcx with hh1 hh2
            exact hne hh2
          · rw [if_neg hb]; simp
        rw [hsp]
        by_cases hm : matchesTarget tgt c' = true
        · by_cases hmem : c' ∈ g src
          · rw [List.count_filter hm, List.count_eq_one_of_mem (hnd src) hmem]
            rw [if_pos ⟨by simp, by simp [isWalkFrom, hmem],
              by simpa [lastMod_single] using hm, by simp⟩]
          · have hni : c' ∉ (g src).filter (matchesTarget tgt) := by
              intro hcmem
              exact hmem (List.mem_of_mem_filter hcmem)
            rw [List.count_eq_zero.mpr hni, if_neg]
            rintro ⟨-, hw, -, -⟩
            simp [isWalkFrom, hmem] at hw
        · have hni : c' ∉ (g src).filter (matchesTarget tgt) := by
            intro hcmem
            exact hm (List.of_mem_filter hcmem)
          rw [List.count_eq_zero.mpr hni, if_neg]
          rintro ⟨-, -, hm2, -⟩
          rw [lastMod_single] at hm2
          exact hm hm2
      | cons c2 e2 =>
        have h1 : (((g src).filter (matchesTarget tgt)).map
            (fun d => [d])).count (c' :: c2 :: e2) = 0 := by
          rw [List.count_eq_zero]
          intro h
          obtain ⟨d, _, hd⟩ := List.mem_map.mp h
          simp at hd
        rw [h1]
        by_cases hb : 1 ≤ b
        · rw [if_pos hb]
          rw [count_flatten_cons_map (fun c => targetExts g tgt c b) c'
            (c2 :: e2) (g src) (hnd src)]
          by_cases hmem : c' ∈ g src
          · rw [if_pos hmem, ih c' (c2 :: e2)]
            have hiff : (c2 :: e2 ≠ [] ∧ isWalkFrom g c' (c2 :: e2) = true ∧
                matchesTarget tgt (lastMod (c2 :: e2)) = true ∧
                (c2 :: e2).length ≤ b) ↔
                (c' :: c2 :: e2 ≠ [] ∧
                  isWalkFrom g src (c' :: c2 :: e2) = true ∧
                  matchesTarget tgt (lastMod (c' :: c2 :: e2)) = true ∧
                  (c' :: c2 :: e2).length ≤ b + 1) := by
              rw [lastMod_cons_of_ne_nil c' (c2 :: e2) (by simp)]
              constructor
              · rintro ⟨-, hw, hm2, hlen⟩
                refine ⟨by simp, ?_, hm2, ?_⟩
                · simp only [isWalkFrom, Bool.and_eq_true,
                    decide_eq_true_eq] at hw ⊢
                  exact ⟨hmem, hw⟩
                · simp only [List.length_cons] at hlen ⊢
                  omega
              · rintro ⟨-, hw, hm2, hlen⟩
                refine ⟨by simp, ?_, hm2, ?_⟩
                · simp only [isWalkFrom, Bool.and_eq_true,
                    decide_eq_true_eq] at hw ⊢
                  exact hw.2
                · simp only [List.length_cons] at hlen ⊢
                  omega
            rw [if_congr hiff rfl rfl]
            omega
          · rw [if_neg hmem, if_neg]
            rintro ⟨-, hw, -, -⟩
            simp only [isWalkFrom, Bool.and_eq_true, decide_eq_true_eq] at hw
            exact hmem hw.1
        · rw [if_neg hb]
          simp only [List.count_nil]
          rw [if_neg]
          rintro ⟨-, -, -, hlen⟩
          simp at hlen
          omega

theorem isWalkFrom_rank_nodup (g : DepGraph) (rank : ModVer → Nat)
    (hacyc : ∀ m c, c ∈ g m → rank c < rank m) :
    ∀ p src, isWalkFrom g src p = true →
      (∀ x ∈ p, rank x < rank src) ∧ p.Nodup := by
  intro p
  induction p with
  | nil => intro src _; exact ⟨by simp, List.nodup_nil⟩
  | cons c rest ih =>
    intro src hw
    simp only [isWalkFrom, Bool.and_eq_true, decide_eq_true_eq] at hw
    obtain ⟨hc, hw2⟩ := hw
    obtain ⟨hranks, hnodup⟩ := ih c hw2
    have hcr : rank c < rank src := hacyc src c hc
    refine ⟨?_, ?_⟩
    · intro x hx
      rcases List.mem_cons.mp hx with rfl | hx
      · exact hcr
      · exact lt_trans (hranks x hx) hcr
    · rw [List.nodup_cons]
      exact ⟨fun hmem => absurd (hranks c hmem) (lt_irrefl _), hnodup⟩

/-- C1 (amended): for every graph with duplicate-free dependency lists and a
rank function witnessing acyclicity, findPathsBetween with showAll semantics
emits every path exactly once: the multiset of results contains each list p
exactly once when p leads from the start module along graph edges to a module
matching the target in between 1 and maxDepth+1 hops (length between 2 and
maxDepth+2 modules), and zero times otherwise; moreover every emitted path is
simple (no repeated module). -/
theorem findPathsBetween_path_count (g : DepGraph) (frm tgt : ModVer)
    (maxDepth : Nat) (hnd : ∀ m, (g m).Nodup) (rank : ModVer → Nat)
    (hacyc : ∀ m c, c ∈ g m → rank c < rank m) (p : List ModVer) :
    ((findPathsBetween g frm tgt maxDepth).count p =
      if p.head? = some frm ∧ p.tail ≠ [] ∧ isWalkFrom g frm p.tail = true ∧
          matchesTarget tgt (lastMod p) = true ∧ p.length ≤ maxDepth + 2
      then 1 else 0) ∧
    (p ∈ findPathsBetween g frm tgt maxDepth → p.Nodup) := by
  have hfp : findPathsBetween g frm tgt maxDepth
      = (targetExts g tgt frm (maxDepth + 1)).map (fun e => frm :: e) := by
    rw [findPathsBetween,
      xxx_eq_targetExts g tgt maxDepth maxDepth 1 [frm] (by omega) (by omega),
      lastMod_single, show maxDepth + 2 - 1 = maxDepth + 1 from by omega]
    rfl
  constructor
  · rw [hfp]
    cases p with
    | nil =>
      have h0 : ((targetExts g tgt frm (maxDepth + 1)).map
          (fun e => frm :: e)).count ([] : List ModVer) = 0 := by
        rw [List.count_eq_zero]
        intro hmem
        obtain ⟨e, -, he⟩ := List.mem_map.mp hmem
        simp at he
      rw [h0, if_neg]
      rintro ⟨hh, -⟩
      simp at hh
    | cons c e =>
      by_cases hc : c = frm
      · subst hc
        rw [count_cons_map c e (targetExts g tgt c (maxDepth + 1))]
        rw [count_targetExts g tgt hnd (maxDepth + 1) c e]
        cases e with
        | nil =>
          rw [if_neg (by rintro ⟨h, -⟩; exact h rfl),
            if_neg (by rintro ⟨-, h, -⟩; exact h rfl)]
        | cons c2 e2 =>
          have hiff : (c2 :: e2 ≠ [] ∧ isWalkFrom g c (c2 :: e2) = true ∧
              matchesTarget tgt (lastMod (c2 :: e2)) = true ∧
              (c2 :: e2).length ≤ maxDepth + 1) ↔
              ((c :: c2 :: e2).head? = some c ∧ (c :: c2 :: e2).tail ≠ [] ∧
                isWalkFrom g c ((c :: c2 :: e2).tail) = true ∧
                matchesTarget tgt (lastMod (c :: c2 :: e2)) = true ∧
                (c :: c2 :: e2).length ≤ maxDepth + 2) := by
            rw [lastMod_cons_of_ne_nil c (c2 :: e2) (by simp)]
            simp only [List.head?_cons, List.tail_cons, List.length_cons,
              Option.some.injEq, true_and]
            constructor
            · rintro ⟨-, hw, hm2, hlen⟩
              exact ⟨by simp, hw, hm2, by omega⟩
            · rintro ⟨-, hw, hm2, hlen⟩
              exact ⟨by simp, hw, hm2, by omega⟩
          rw [if_congr hiff rfl rfl]
      · have h0 : ((targetExts g tgt frm (maxDepth + 1)).map
            (fun e => frm :: e)).count (c :: e) = 0 := by
          rw [List.count_eq_zero]
          intro hmem
          obtain ⟨x, -, hx⟩ := List.mem_map.mp hmem
          exact hc ((List.cons.inj hx).1).symm
        rw [h0, if_neg]
        rintro ⟨hh, -⟩
        simp only [List.head?_cons, Option.some.injEq] at hh
        exact hc hh
  · intro hp
    rw [hfp] at hp
    obtain ⟨e, he, rfl⟩ := List.mem_map.mp hp
    have hcnt : 0 < (targetExts g tgt frm (maxDepth + 1)).count e :=
      List.count_pos_iff.mpr he
    rw [count_targetExts g tgt hnd] at hcnt
    by_cases hcond : (e ≠ [] ∧ isWalkFrom g frm e = true ∧
        matchesTarget tgt (lastMod e) = true ∧ e.length ≤ maxDepth + 1)
    · obtain ⟨hne, hw, -, -⟩ := hcond
      obtain ⟨hranks, hnodup⟩ := isWalkFrom_rank_nodup g rank hacyc e frm hw
      rw [List.nodup_cons]
      exact ⟨fun hmem => absurd (hranks frm hmem) (lt_irrefl _), hnodup⟩
    · rw [if_neg hcond] at hcnt
      exact absurd hcnt (by omega)

/-- Witness for C1 (amended): the count theorem applied to the spec's demo
scenario a → b, a → c, b → d with target d and maxDepth 4: the path a, b, d
is counted exactly once and is simple. -/
theorem findPathsBetween_path_count_witness :
    ((findPathsBetween demoGraph ⟨"a", "v1"⟩ ⟨"d", "v1"⟩ 4).count
        [⟨"a", "v1"⟩, ⟨"b", "v1"⟩, ⟨"d", "v1"⟩] =
      if ([⟨"a", "v1"⟩, ⟨"b", "v1"⟩, ⟨"d", "v1"⟩] : List ModVer).head?
            = some ⟨"a", "v1"⟩ ∧
          ([⟨"a", "v1"⟩, ⟨"b", "v1"⟩, ⟨"d", "v1"⟩] : List ModVer).tail ≠ [] ∧
          isWalkFrom demoGraph ⟨"a", "v1"⟩
            ([⟨"a", "v1"⟩, ⟨"b", "v1"⟩, ⟨"d", "v1"⟩] : List ModVer).tail
            = true ∧
          matchesTarget ⟨"d", "v1"⟩
            (lastMod [⟨"a", "v1"⟩, ⟨"b", "v1"⟩, ⟨"d", "v1"⟩]) = true ∧
          ([⟨"a", "v1"⟩, ⟨"b", "v1"⟩, ⟨"d", "v1"⟩] : List ModVer).length ≤ 4 + 2
      then 1 else 0) ∧
    ([⟨"a", "v1"⟩, ⟨"b", "v1"⟩, ⟨"d", "v1"⟩] ∈
        findPathsBetween demoGraph ⟨"a", "v1"⟩ ⟨"d", "v1"⟩ 4 →
      ([⟨"a", "v1"⟩, ⟨"b", "v1"⟩, ⟨"d", "v1"⟩] : List ModVer).Nodup) :=
  findPathsBetween_path_count demoGraph ⟨"a", "v1"⟩ ⟨"d", "v1"⟩ 4
    (by
      intro m
      simp only [demoGraph]
      split_ifs <;> decide)
    demoRank
    (by
      intro m c h
      simp only [demoGraph] at h
      split_ifs at h with h1 h2
      · rcases List.mem_cons.mp h with rfl | h
        · simp [demoRank, h1]
        · rcases List.mem_cons.mp h with rfl | h
          · simp [demoRank, h1]
          · simp at h
      · rcases List.mem_cons.mp h with rfl | h
        · simp [demoRank, h1, h2]
        · simp at h
      · simp at h)
    [⟨"a", "v1"⟩, ⟨"b", "v1"⟩, ⟨"d", "v1"⟩]

/-- C1 counterexample: with maxDepth 1 on the line graph a → b → c, the
engine emits the 2-hop path a, b, c, so a path longer than maxDepth hops is
emitted (and the number of emitted paths is 1, while there are zero paths of
at most maxDepth hops from a to c). -/
theorem findPathsBetween_emits_beyond_maxDepth :
    findPathsBetween lineGraph ⟨"a", "v1"⟩ ⟨"c", "v1"⟩ 1
      = [[⟨"a", "v1"⟩, ⟨"b", "v1"⟩, ⟨"c", "v1"⟩]] ∧
    ¬ (([⟨"a", "v1"⟩, ⟨"b", "v1"⟩, ⟨"c", "v1"⟩] : List ModVer).length - 1
        ≤ 1) := by
  refine ⟨?_, by decide⟩
  rw [findPathsBetween,
    xxx_eq_targetExts lineGraph ⟨"c", "v1"⟩ 1 1 1 [⟨"a", "v1"⟩]
      (by omega) (by omega)]
  rfl

/-- Auxiliary for C3: when no dependency of any module matches the target,
the extension enumeration is empty at every budget. -/
theorem targetExts_empty (g : DepGraph) (tgt : ModVer)
    (habsent : ∀ m c, c ∈ g m → matchesTarget tgt c = false) :
    ∀ b src, targetExts g tgt src b = [] := by
  intro b
  induction b with
  | zero => intro src; rfl
  | succ b ih =>
    intro src
    simp only [targetExts]
    rw [List.filter_eq_nil_iff.mpr
      (fun a ha => by simp [habsent src a ha])]
    simp only [List.map_nil, List.nil_append]
    by_cases hb : 1 ≤ b
    · rw [if_pos hb, List.flatten_eq_nil_iff.mpr]
      intro l hl
      obtain ⟨c, -, rfl⟩ := List.mem_map.mp hl
      rw [ih c]
      rfl
    · rw [if_neg hb]

/-- C3: on any graph (cyclic ones included) whose edges never reach a module
matching the target, the search — which terminates for every input because
spawning stops once depth exceeds maxDepth, the fact that makes the recursive
definition of xxx well-founded — emits zero results. -/
theorem pathFinder_cycle_terminates_no_results (g : DepGraph)
    (frm tgt : ModVer) (maxDepth : Nat) (hmax : 1 ≤ maxDepth)
    (habsent : ∀ m c, c ∈ g m → matchesTarget tgt c = false) :
    findPathsBetween g frm tgt maxDepth = [] := by
  rw [findPathsBetween,
    xxx_eq_targetExts g tgt maxDepth maxDepth 1 [frm] (by omega) (by omega),
    targetExts_empty g tgt habsent]
  rfl

/-- Witness for C3: the cycle a → b → a with absent target z and maxDepth 3
yields zero results. -/
theorem pathFinder_cycle_terminates_no_results_witness :
    1 ≤ 3 ∧ findPathsBetween cycleGraph ⟨"a", "v1"⟩ ⟨"z", ""⟩ 3 = [] :=
  ⟨by decide,
   pathFinder_cycle_terminates_no_results cycleGraph ⟨"a", "v1"⟩ ⟨"z", ""⟩ 3
     (by decide)
     (by
       intro m c h
       simp only [cycleGraph] at h
       split_ifs at h with h1 h2
       · rcases List.mem_cons.mp h with rfl | h
         · decide
         · simp at h
       · rcases List.mem_cons.mp h with rfl | h
         · decide
         · simp at h
       · simp at h)⟩

/-- The root chain of every call to xxx is among the explored chains. -/
theorem exploredChains_self (g : DepGraph) (maxDepth : Nat)
    (chain : List ModVer) (depth : Nat) :
    chain ∈ exploredChains g maxDepth chain depth := by
  rw [exploredChains]
  exact List.mem_cons_self _ _

/-- A chain explored by a spawned child task is explored by the parent. -/
theorem exploredChains_child (g : DepGraph) (maxDepth : Nat)
    (chain : List ModVer) (depth : Nat) (c : ModVer)
    (hd : depth ≤ maxDepth) (hc : c ∈ g (lastMod chain)) (p : List ModVer)
    (hp : p ∈ exploredChains g maxDepth (chain ++ [c]) (depth + 1)) :
    p ∈ exploredChains g maxDepth chain depth := by
  rw [exploredChains]
  apply List.mem_cons_of_mem
  rw [dif_pos hd]
  exact List.mem_flatten.mpr ⟨_, List.mem_map.mpr ⟨c, hc, rfl⟩, hp⟩

/-- C5 counterexample: on the cycle a → b → a with maxDepth 2, the chain
a, b, a — in which module a appears twice — is handed to xxx for expansion,
so the engine does revisit a module already present earlier in the same
chain. -/
theorem pathFinder_revisits_module_on_cycle :
    [⟨"a", "v1"⟩, ⟨"b", "v1"⟩, ⟨"a", "v1"⟩] ∈
        exploredChains cycleGraph 2 [⟨"a", "v1"⟩] 1 ∧
    ¬ (([⟨"a", "v1"⟩, ⟨"b", "v1"⟩, ⟨"a", "v1"⟩] : List ModVer).map
        ModVer.path).Nodup := by
  refine ⟨?_, by decide⟩
  apply exploredChains_child cycleGraph 2 [⟨"a", "v1"⟩] 1 ⟨"b", "v1"⟩
    (by omega) (by decide)
  apply exploredChains_child cycleGraph 2 [⟨"a", "v1"⟩, ⟨"b", "v1"⟩] 2
    ⟨"a", "v1"⟩ (by omega) (by decide)
  exact exploredChains_self cycleGraph 2
    [⟨"a", "v1"⟩, ⟨"b", "v1"⟩, ⟨"a", "v1"⟩] 3

/-- Auxiliary for C5 (amended): every chain explored below a given call grows
by at most one module per remaining depth level. -/
theorem exploredChains_length_le (g : DepGraph) (maxDepth : Nat) :
    ∀ b depth chain p, maxDepth + 1 - depth = b →
      p ∈ exploredChains g maxDepth chain depth →
      p.length ≤ chain.length + (maxDepth + 1 - depth) := by
  intro b
  induction b with
  | zero =>
    intro depth chain p hb hp
    rw [exploredChains] at hp
    simp only [dif_neg (by omega : ¬ depth ≤ maxDepth)] at hp
    rcases List.mem_cons.mp hp with rfl | h
    · omega
    · simp at h
  | succ b ih =>
    intro depth chain p hb hp
    rw [exploredChains] at hp
    simp only [dif_pos (by omega : depth ≤ maxDepth)] at hp
    rcases List.mem_cons.mp hp with rfl | h
    · omega
    · obtain ⟨l, hl, hpl⟩ := List.mem_flatten.mp h
      obtain ⟨c, -, rfl⟩ := List.mem_map.mp hl
      have := ih (depth + 1) (chain ++ [c]) p (by omega) hpl
      simp only [List.length_append, List.length_cons, List.length_nil]
        at this
      omega

/-- C5 (amended): pathFinder performs no within-chain revisit check — a
module already on the chain can be expanded again, as the counterexample
shows — and the depth bound is the only guard on chain growth: every chain
the engine explores from a root call holds at most maxDepth + 1 modules. -/
theorem pathFinder_depth_bound_only_chain_guard (g : DepGraph)
    (frm : ModVer) (maxDepth : Nat) (p : List ModVer)
    (hp : p ∈ exploredChains g maxDepth [frm] 1) :
    p.length ≤ maxDepth + 1 := by
  have h := exploredChains_length_le g maxDepth maxDepth 1 [frm] p
    (by omega) hp
  simp only [List.length_cons, List.length_nil] at h
  omega

/-- Witness for C5 (amended): the chain a, b explored on the cycle graph with
maxDepth 2 has at most 3 modules. -/
theorem pathFinder_depth_bound_only_chain_guard_witness :
    ([⟨"a", "v1"⟩, ⟨"b", "v1"⟩] : List ModVer).length ≤ 2 + 1 :=
  pathFinder_depth_bound_only_chain_guard cycleGraph ⟨"a", "v1"⟩ 2
    [⟨"a", "v1"⟩, ⟨"b", "v1"⟩]
    (exploredChains_child cycleGraph 2 [⟨"a", "v1"⟩] 1 ⟨"b", "v1"⟩
      (by omega) (by decide) _
      (exploredChains_self cycleGraph 2 [⟨"a", "v1"⟩, ⟨"b", "v1"⟩] 2))

end Perseus
